import Mathlib

/-!
Verification of the Theru Fleet admin dashboard (a React frontend over a REST
backend).  The JavaScript sources are shallowly embedded: pure computations
become Lean functions, JS numbers used for money become rationals, JS strings
are embedded either as Lean `String` or, for the CSV machinery where the
proofs walk the characters, as `List Char`.  Each definition carries a note
pointing at the source file and lines it embeds.
-/

/-! ## Revenue constants and display computations

Three pages each declare their own `RATE_PER_IMPRESSION = 0.10` and multiply
an impression count by it.  The JS float literal 0.10 is embedded as the
rational 1/10.
-/

namespace DashboardPage

/-- Embeds `const RATE_PER_IMPRESSION = 0.10` from
`frontend/src/pages/DashboardPage.js` line 46. -/
def RATE_PER_IMPRESSION : ℚ := 1/10

/-- Embeds `const totalRevenue = stats.total_impressions * RATE_PER_IMPRESSION`
from `frontend/src/pages/DashboardPage.js` line 47. -/
def totalRevenue (total_impressions : ℕ) : ℚ :=
  total_impressions * RATE_PER_IMPRESSION

/-- Embeds `const todayRevenue = stats.today_impressions * RATE_PER_IMPRESSION`
from `frontend/src/pages/DashboardPage.js` line 48. -/
def todayRevenue (today_impressions : ℕ) : ℚ :=
  today_impressions * RATE_PER_IMPRESSION

end DashboardPage

namespace AnalyticsPage

/-- Embeds `const RATE_PER_IMPRESSION = 0.10` from the analytics page
(src/unnamed/part_002 line 12). -/
def RATE_PER_IMPRESSION : ℚ := 1/10

/-- Embeds `const totalRevenue = (overview.total_impressions || 0) *
RATE_PER_IMPRESSION` from the analytics page (src/unnamed/part_002 line 136);
the `|| 0` default is an `Option.getD 0`. -/
def totalRevenue (total_impressions : Option ℕ) : ℚ :=
  (total_impressions.getD 0) * RATE_PER_IMPRESSION

end AnalyticsPage

/-- One row of the per-campaign stats array returned by
`GET /analytics/campaigns`, as consumed by the clients page
(src/unnamed/part_001 lines 37-47). -/
structure CampaignStatRow where
  campaign_id : String
  client_id : String
  total_impressions : Option ℕ
deriving DecidableEq

namespace ClientsPage

/-- Embeds `const RATE_PER_IMPRESSION = 0.10` from the clients page
(src/unnamed/part_001 line 76). -/
def RATE_PER_IMPRESSION : ℚ := 1/10

/-- Embeds one step of the `forEach` that builds `statsMap` on the clients page
(src/unnamed/part_001 lines 39-46): the entry for `s.client_id` is initialised
to zeros when absent and then receives `impressions += s.total_impressions || 0`
and `campaigns += 1`.  The JS object keyed by client id is embedded as a total
function defaulting to `(0, 0)`. -/
def statsStep (m : String → ℕ × ℕ) (s : CampaignStatRow) : String → ℕ × ℕ :=
  fun cid =>
    if cid = s.client_id then
      ⟨(m s.client_id).1 + s.total_impressions.getD 0, (m s.client_id).2 + 1⟩
    else m cid

/-- Embeds the whole `statsMap` construction of `loadData` on the clients page
(src/unnamed/part_001 lines 37-47). -/
def buildStatsMap (rows : List CampaignStatRow) : String → ℕ × ℕ :=
  rows.foldl statsStep (fun _ => ⟨0, 0⟩)

/-- Embeds `getClientRevenue` from the clients page (src/unnamed/part_001
lines 77-80): `(stats.impressions || 0) * RATE_PER_IMPRESSION`, where a client
absent from the map contributes 0 impressions. -/
def getClientRevenue (rows : List CampaignStatRow) (clientId : String) : ℚ :=
  ((buildStatsMap rows clientId).1 : ℚ) * RATE_PER_IMPRESSION

end ClientsPage

/-- Impressions accumulated by the stats fold for a client equal the sum of
`total_impressions || 0` over the stat rows carrying that client id, whatever
map the fold starts from. -/
lemma statsFold_impressions (rows : List CampaignStatRow) :
    ∀ (m : String → ℕ × ℕ) (cid : String),
      ((rows.foldl ClientsPage.statsStep m) cid).1 =
        (m cid).1 +
          ((rows.filter (fun s => s.client_id == cid)).map
            (fun s => s.total_impressions.getD 0)).sum := by
  induction rows with
  | nil => intro m cid; simp
  | cons s rest ih =>
    intro m cid
    rw [List.foldl_cons, ih]
    by_cases hcid : s.client_id = cid
    · subst hcid
      simp [ClientsPage.statsStep, List.filter_cons]
      omega
    · have hbeq : (s.client_id == cid) = false := by
        simp [hcid]
      have hcid' : ¬ cid = s.client_id := fun h => hcid h.symm
      simp [ClientsPage.statsStep, List.filter_cons, hbeq, hcid']

/-- C1: for every impression count n, the displayed revenue is n times the
0.10 rate, and revenue is monotone non-decreasing in the impression count. -/
theorem revenue_linear_monotone :
    (∀ n : ℕ, DashboardPage.totalRevenue n = n * (1/10 : ℚ)) ∧
    (∀ n₁ n₂ : ℕ, n₁ ≤ n₂ →
      DashboardPage.totalRevenue n₁ ≤ DashboardPage.totalRevenue n₂) := by
  constructor
  · intro n
    rfl
  · intro n₁ n₂ h
    unfold DashboardPage.totalRevenue
    apply mul_le_mul_of_nonneg_right
    · exact_mod_cast h
    · norm_num [DashboardPage.RATE_PER_IMPRESSION]

/-- Witness for C1 at n₁ = 3, n₂ = 5. -/
theorem revenue_linear_monotone_w :
    DashboardPage.totalRevenue 3 = 3 * (1/10 : ℚ) ∧
    DashboardPage.totalRevenue 3 ≤ DashboardPage.totalRevenue 5 :=
  ⟨revenue_linear_monotone.1 3, revenue_linear_monotone.2 3 5 (by decide)⟩

/-- C2: the three separately declared RATE_PER_IMPRESSION constants (dashboard
page, analytics page, clients page) are equal, and the revenue-per-impression
functions of the three pages are pairwise equal as functions of the impression
count, each mapping n to n times 0.10. -/
theorem rate_single_source :
    (DashboardPage.RATE_PER_IMPRESSION = AnalyticsPage.RATE_PER_IMPRESSION ∧
     AnalyticsPage.RATE_PER_IMPRESSION = ClientsPage.RATE_PER_IMPRESSION) ∧
    ((fun n : ℕ => DashboardPage.totalRevenue n) =
      (fun n : ℕ => AnalyticsPage.totalRevenue (some n))) ∧
    ((fun n : ℕ => AnalyticsPage.totalRevenue (some n)) =
      (fun n : ℕ => (n : ℚ) * ClientsPage.RATE_PER_IMPRESSION)) ∧
    (∀ rows clientId,
      ClientsPage.getClientRevenue rows clientId =
        ((ClientsPage.buildStatsMap rows clientId).1 : ℚ) *
          DashboardPage.RATE_PER_IMPRESSION) ∧
    (∀ n : ℕ, DashboardPage.totalRevenue n = n * (1/10 : ℚ)) := by
  refine ⟨⟨rfl, rfl⟩, funext fun n => rfl, funext fun n => rfl, fun rows cid => rfl,
    fun n => rfl⟩

/-- C7: the clients-page impression total for a client is the sum of
`total_impressions || 0` over the per-campaign stat rows whose client id
matches, and the displayed client revenue is that total times 0.10. -/
theorem client_stats_aggregation :
    ∀ (rows : List CampaignStatRow) (clientId : String),
      (ClientsPage.buildStatsMap rows clientId).1 =
        ((rows.filter (fun s => s.client_id == clientId)).map
          (fun s => s.total_impressions.getD 0)).sum ∧
      ClientsPage.getClientRevenue rows clientId =
        (((rows.filter (fun s => s.client_id == clientId)).map
          (fun s => s.total_impressions.getD 0)).sum : ℚ) * (1/10 : ℚ) := by
  intro rows clientId
  have h := statsFold_impressions rows (fun _ => ⟨0, 0⟩) clientId
  have h0 : (ClientsPage.buildStatsMap rows clientId).1 =
      ((rows.filter (fun s => s.client_id == clientId)).map
        (fun s => s.total_impressions.getD 0)).sum := by
    unfold ClientsPage.buildStatsMap
    rw [h]
    simp
  refine ⟨h0, ?_⟩
  unfold ClientsPage.getClientRevenue ClientsPage.RATE_PER_IMPRESSION
  rw [h0, Nat.cast_list_sum, List.map_map]
  rfl

/-! ## Campaign status change requests

The campaigns page offers exactly one status action per campaign
(`frontend/src/pages/CampaignsPage.js` lines 339-358): a Pause button sending
PAUSED when `campaign.status?.toLowerCase() === 'active'`, and an Activate
button sending ACTIVE otherwise.  `handleStatusChange` (lines 84-92) forwards
the chosen status verbatim to `PUT /campaigns/:id/status`.
-/

/-- Lower-cases a string character by character, as the JS toLowerCase method
does on these ASCII status strings; written over the character list so that it
evaluates by kernel reduction. -/
def strToLower (s : String) : String :=
  ⟨s.data.map Char.toLower⟩

/-- Embeds the status the campaigns-page action button requests for a campaign
whose stored status is the given optional string: PAUSED when the status
lower-cases to active, ACTIVE in every other case (including COMPLETED and a
missing status). -/
def requestedStatusTarget (status : Option String) : String :=
  if status.map strToLower = some "active" then "PAUSED" else "ACTIVE"

/-- Counterexample to C3: for a campaign whose status is COMPLETED, the
status-change operation requests ACTIVE, a transition out of COMPLETED from a
state that is neither SCHEDULED nor PAUSED. -/
theorem status_change_completed_cex :
    requestedStatusTarget (some "COMPLETED") = "ACTIVE" ∧
    ¬ ("COMPLETED" = "SCHEDULED" ∨ "COMPLETED" = "PAUSED" ∨
       "COMPLETED" = "ACTIVE") := by
  constructor
  · decide
  · decide

/-- C3 amended: the status-change operation requests PAUSED exactly when the
campaign's status lower-cases to active, and requests ACTIVE for every other
status — including COMPLETED and a missing status — so it never requests a
pause outside ACTIVE and never requests an activation of an already ACTIVE
campaign, but it does request activation out of COMPLETED. -/
theorem status_change_target :
    ∀ status : Option String,
      (requestedStatusTarget status = "PAUSED" ↔
        status.map strToLower = some "active") ∧
      (requestedStatusTarget status = "ACTIVE" ↔
        ¬ status.map strToLower = some "active") := by
  intro status
  by_cases h : status.map strToLower = some "active" <;>
    simp [requestedStatusTarget, h]

/-! ## Device status classification -/

/-- Status a device can be classified into by the staleness sweep. -/
inductive DeviceStatus where
  | online
  | offline
deriving DecidableEq

/-- Modelled from the spec: the backend sweep behind `POST /admin/mark-offline`
(only its caller `adminAPI.markOfflineDevices`, `frontend/src/lib/api.js`
lines 103-105, is in the repository).  Per spec section 4.1 the sweep
classifies a device online when `now - last_seen <= T` for staleness threshold
T and offline otherwise, with a missing `last_seen` classified offline.
Timestamps are embedded as integers. -/
def deviceStatusSweep (T now : ℤ) (last_seen : Option ℤ) : DeviceStatus :=
  match last_seen with
  | none => .offline
  | some t => if now - t ≤ T then .online else .offline

/-- C6: the sweep classifies online exactly when `now - last_seen <= T`; a
missing `last_seen` is offline; `last_seen = now - T - 1` is offline and
`last_seen = now - T + 1` is online. -/
theorem device_status_boundaries :
    ∀ (T now t : ℤ),
      deviceStatusSweep T now none = .offline ∧
      (deviceStatusSweep T now (some t) = .online ↔ now - t ≤ T) ∧
      deviceStatusSweep T now (some (now - T - 1)) = .offline ∧
      deviceStatusSweep T now (some (now - T + 1)) = .online := by
  intro T now t
  refine ⟨rfl, ?_, ?_, ?_⟩
  · by_cases h : now - t ≤ T <;> simp [deviceStatusSweep, h]
  · have h : ¬ now - (now - T - 1) ≤ T := by omega
    simp [deviceStatusSweep, h]
  · have h : now - (now - T + 1) ≤ T := by omega
    simp [deviceStatusSweep, h]

/-! ## Ad video upload validation

`handleFileSelect` (`frontend/src/pages/CampaignsPage.js` lines 110-123)
validates the chosen file purely client-side: a non-video MIME type or a size
over 100MB produces an error toast and returns before the pending form state
is touched, and the handler itself performs no network request (the upload
request happens only later, in `handleUploadAd`).  The observable outcome is
embedded as the new form state plus a list of emitted effects.
-/

/-- Tests whether p is a prefix of s, as the JS startsWith method does;
written over the character lists so that it evaluates by kernel reduction. -/
def strStartsWith (s p : String) : Bool :=
  p.data.isPrefixOf s.data

/-- Relevant attributes of a browser File object. -/
structure FileInfo where
  type : String
  size : ℕ
deriving DecidableEq

/-- Pending ad-upload form state (`adFormData` on the campaigns page). -/
structure AdFormData where
  file : Option FileInfo
  duration : ℕ
deriving DecidableEq

/-- Effects `handleFileSelect` can emit. -/
inductive UploadEffect where
  | toastError (msg : String)
  | networkCall
deriving DecidableEq

/-- Embeds `handleFileSelect` (`frontend/src/pages/CampaignsPage.js` lines
110-123): no file selected does nothing; a file whose type does not start with
video/ is rejected; a file over 100 * 1024 * 1024 bytes is rejected; otherwise
the file is stored into the form state.  No branch emits a network call. -/
def handleFileSelect (adFormData : AdFormData) (selected : Option FileInfo) :
    AdFormData × List UploadEffect :=
  match selected with
  | none => ⟨adFormData, []⟩
  | some file =>
    if !(strStartsWith file.type "video/") then
      ⟨adFormData, [.toastError "Please select a video file"]⟩
    else if file.size > 100 * 1024 * 1024 then
      ⟨adFormData, [.toastError "File size must be less than 100MB"]⟩
    else
      ⟨⟨some file, adFormData.duration⟩, []⟩

/-- C8: a selected file with a non-video MIME type or a size over 100MB is
rejected with a user-visible error message, no network call is emitted, and
the pending ad-upload form state is left unchanged. -/
theorem upload_file_validation (st : AdFormData) (f : FileInfo)
    (h : strStartsWith f.type "video/" = false ∨ f.size > 100 * 1024 * 1024) :
    (handleFileSelect st (some f)).1 = st ∧
    (∃ m, (handleFileSelect st (some f)).2 = [UploadEffect.toastError m]) ∧
    UploadEffect.networkCall ∉ (handleFileSelect st (some f)).2 := by
  rcases h with h | h
  · simp [handleFileSelect, h]
  · by_cases hv : strStartsWith f.type "video/"
    · simp [handleFileSelect, hv, h]
    · simp only [Bool.not_eq_true] at hv
      simp [handleFileSelect, hv]

/-- Witness for C8: a 5-byte PNG image is rejected without touching the form
state. -/
theorem upload_file_validation_w :
    (handleFileSelect ⟨none, 30⟩ (some ⟨"image/png", 5⟩)).1 = ⟨none, 30⟩ ∧
    (∃ m, (handleFileSelect ⟨none, 30⟩ (some ⟨"image/png", 5⟩)).2 =
      [UploadEffect.toastError m]) ∧
    UploadEffect.networkCall ∉ (handleFileSelect ⟨none, 30⟩ (some ⟨"image/png", 5⟩)).2 :=
  upload_file_validation ⟨none, 30⟩ ⟨"image/png", 5⟩ (Or.inl (by decide))

/-! ## Route protection

`ProtectedRoute` (src/unnamed/part_000 lines 4-24) renders a loading screen
while the auth session loads, redirects to /login when there is no user,
redirects to /unauthorized when a non-empty requiredRoles list does not
include the user's role, and renders the protected page otherwise.  `App`
(`frontend/src/App.js` lines 21-72) wires the routes, giving /devices,
/drivers and /clients requiredRoles of admin only and the others an empty
list.
-/

/-- Possible render outcomes of the ProtectedRoute component. -/
inductive RouteRender where
  | loadingScreen
  | redirectLogin
  | redirectUnauthorized
  | pageContent
deriving DecidableEq

/-- Embeds `requiredRoles.includes(userRole)` (src/unnamed/part_000 line 19);
a null role is a member of no list. -/
def rolesIncludes (requiredRoles : List String) : Option String → Bool
  | some r => requiredRoles.contains r
  | none => false

/-- Embeds the `ProtectedRoute` component (src/unnamed/part_000 lines 4-24);
the user object is abstracted to its presence. -/
def ProtectedRoute (loading : Bool) (hasUser : Bool) (userRole : Option String)
    (requiredRoles : List String) : RouteRender :=
  if loading then .loadingScreen
  else if !hasUser then .redirectLogin
  else if requiredRoles.length > 0 && !(rolesIncludes requiredRoles userRole) then
    .redirectUnauthorized
  else .pageContent

/-- Embeds the route table of `App` (`frontend/src/App.js` lines 21-72):
each protected path with the requiredRoles its ProtectedRoute receives
(omitted prop means the default empty list). -/
def appRoutes : List (String × List String) :=
  [("/dashboard", []), ("/devices", ["admin"]), ("/drivers", ["admin"]),
   ("/campaigns", []), ("/clients", ["admin"]), ("/analytics", [])]

/-- C9: once loading is over, no user means a /login redirect; a non-empty
role list without the user's role means an /unauthorized redirect and
otherwise the page renders; the admin-only routes /devices, /drivers and
/clients are unreachable for role customer, while the routes with an empty
requiredRoles list admit any authenticated user. -/
theorem protected_route_access :
    (∀ (userRole : Option String) (requiredRoles : List String),
      ProtectedRoute false false userRole requiredRoles = .redirectLogin) ∧
    (∀ (userRole : Option String) (requiredRoles : List String),
      ProtectedRoute false true userRole requiredRoles =
        if requiredRoles.isEmpty then .pageContent
        else if rolesIncludes requiredRoles userRole then .pageContent
        else .redirectUnauthorized) ∧
    (∀ path ∈ (["/devices", "/drivers", "/clients"] : List String),
      appRoutes.lookup path = some ["admin"] ∧
      ProtectedRoute false true (some "customer") ["admin"] =
        .redirectUnauthorized) ∧
    (∀ path ∈ (["/dashboard", "/campaigns", "/analytics"] : List String),
      appRoutes.lookup path = some [] ∧
      ∀ userRole, ProtectedRoute false true userRole [] = .pageContent) := by
  refine ⟨fun r rs => rfl, ?_, ?_, ?_⟩
  · intro r rs
    cases rs with
    | nil => rfl
    | cons a l =>
      by_cases h : rolesIncludes (a :: l) r <;>
        simp [ProtectedRoute, h]
  · intro path hp
    refine ⟨?_, by decide⟩
    simp only [List.mem_cons, List.not_mem_nil, or_false] at hp
    rcases hp with h | h | h <;> subst h <;> decide
  · intro path hp
    refine ⟨?_, fun r => rfl⟩
    simp only [List.mem_cons, List.not_mem_nil, or_false] at hp
    rcases hp with h | h | h <;> subst h <;> decide

/-- Witness for C9 at a concrete admin-only path. -/
theorem protected_route_access_w :
    appRoutes.lookup "/devices" = some ["admin"] ∧
    ProtectedRoute false true (some "customer") ["admin"] =
      .redirectUnauthorized :=
  protected_route_access.2.2.1 "/devices" (by decide)

/-! ## Derived user role

`AuthProvider` (`frontend/src/context/AuthContext.js` lines 12-48) decodes
the middle segment of the session's JWT access token with atob and JSON.parse
and derives the user role as `payload.user_role || 'customer'`, falling back
to customer when decoding throws, and setting the role to null when there is
no session.  The base64/JSON decoding is abstracted: a session's token is
embedded as `none` when decoding would throw and `some payload` otherwise,
and the whole argument is `none` when there is no session (or no access
token).
-/

/-- Decoded JWT payload, keeping only the claim the provider reads. -/
structure TokenPayload where
  user_role : Option String
deriving DecidableEq

/-- Embeds the role derivation of `AuthProvider`
(`frontend/src/context/AuthContext.js` lines 17-24 and 35-43): no session
gives a null role; an undecodable token gives customer; a decoded payload
gives `payload.user_role || 'customer'`, where the JS `||` also replaces an
empty string by customer. -/
def deriveUserRole : Option (Option TokenPayload) → Option String
  | none => none
  | some none => some "customer"
  | some (some payload) =>
    some (match payload.user_role with
          | none => "customer"
          | some r => if r = "" then "customer" else r)

/-- C10: an undecodable token or a missing user_role claim derives the role
customer, no session derives null, and the derived role is admin exactly when
the decoded payload explicitly carries user_role admin. -/
theorem user_role_derivation :
    deriveUserRole none = none ∧
    deriveUserRole (some none) = some "customer" ∧
    deriveUserRole (some (some ⟨none⟩)) = some "customer" ∧
    (∀ s, deriveUserRole s = some "admin" ↔
      ∃ p, s = some (some p) ∧ p.user_role = some "admin") := by
  refine ⟨rfl, rfl, rfl, ?_⟩
  intro s
  match s with
  | none => simp [deriveUserRole]
  | some none =>
    simp only [deriveUserRole]
    constructor
    · intro h
      exact absurd (Option.some.inj h) (by decide)
    · rintro ⟨p, hp, -⟩
      exact absurd hp (by simp)
  | some (some p) =>
    simp only [deriveUserRole, Option.some.injEq]
    cases hr : p.user_role with
    | none =>
      constructor
      · intro h; exact absurd h (by decide)
      · rintro ⟨q, hq, hq2⟩
        cases hq
        rw [hr] at hq2
        exact absurd hq2 (by simp)
    | some r =>
      by_cases he : r = ""
      · subst he
        constructor
        · intro h; exact absurd h (by decide)
        · rintro ⟨q, hq, hq2⟩
          cases hq
          rw [hr] at hq2
          exact absurd (Option.some.inj hq2) (by decide)
      · simp only [if_neg he]
        constructor
        · intro h
          exact ⟨p, rfl, by rw [hr, h]⟩
        · rintro ⟨q, hq, hq2⟩
          cases hq
          rw [hr] at hq2
          exact Option.some.inj hq2

/-! ## CSV export

`convertToCSV` (`frontend/src/lib/api.js` lines 108-124) turns a list of
records and an ordered list of field selectors into CSV text: an early return
of the empty string when there are no records, then a header row of the
labels and one row per record, joined by newlines, with each string value
containing a comma or a quote wrapped in quotes with internal quotes doubled
and every other value emitted as-is (null or a missing key as the empty
string).  JS strings are embedded here as `List Char` so the proofs can walk
the characters; `Str` abbreviates that.  Parsing is an RFC 4180 style state
machine over the characters, with the LF convention the encoder itself uses
for row separators.
-/

/-- JS strings, embedded as their character lists. -/
abbrev Str := List Char

/-- JS values a record field can hold in this export path. -/
inductive JValue where
  | str (s : Str)
  | num (n : ℤ)
  | null
deriving DecidableEq

/-- A record, embedded as an association list from keys to values; a key
absent from the list plays the role of the JS undefined property. -/
abbrev CSVRecord := List (Str × JValue)

/-- A field selector: key and label, as in the `fields` arrays of the
analytics page. -/
abbrev CSVField := Str × Str

/-- Embeds the JS property access `item[f.key]`. -/
def lookupKey : CSVRecord → Str → Option JValue
  | [], _ => none
  | (k, v) :: rest, key => if k = key then some v else lookupKey rest key

/-- Embeds `value.includes(c)` for a single character. -/
def hasChar : Str → Char → Bool
  | [], _ => false
  | c :: cs, x => if c = x then true else hasChar cs x

/-- Embeds the test `value.includes(',') || value.includes('"')` of
`convertToCSV`. -/
def hasCommaOrQuote (s : Str) : Bool :=
  hasChar s ',' || hasChar s '"'

/-- Embeds `value.replace(/"/g, '""')`. -/
def doubleQuotes : Str → Str
  | [] => []
  | c :: cs => if c = '"' then '"' :: '"' :: doubleQuotes cs else c :: doubleQuotes cs

/-- Embeds the per-string branch of `convertToCSV`: wrap in quotes with
internal quotes doubled when the value contains a comma or a quote, else emit
the string as-is. -/
def encodeCell (s : Str) : Str :=
  if hasCommaOrQuote s then '"' :: (doubleQuotes s ++ ['"']) else s

/-- Integer stringification for the values JS would join as numbers. -/
def intToStr (n : ℤ) : Str :=
  (toString n).data

/-- Embeds the whole per-field expression of `convertToCSV`
(`frontend/src/lib/api.js` lines 113-120): strings go through the quoting
branch, other values are emitted as-is with null and undefined becoming the
empty string via `value ?? ''`. -/
def csvCell : Option JValue → Str
  | some (.str s) => encodeCell s
  | some (.num n) => intToStr n
  | some .null => []
  | none => []

/-- Embeds `Array.prototype.join` over the given separator character. -/
def intercalateChar (sep : Char) : List Str → Str
  | [] => []
  | [s] => s
  | s :: t :: rest => s ++ sep :: intercalateChar sep (t :: rest)

/-- Embeds one data row of `convertToCSV`:
`fields.map(f => ...).join(',')`. -/
def encodeRow (fields : List CSVField) (item : CSVRecord) : Str :=
  intercalateChar ',' (fields.map (fun f => csvCell (lookupKey item f.1)))

/-- Embeds `convertToCSV` (`frontend/src/lib/api.js` lines 108-124): empty
data returns the empty string; otherwise the label header row and one encoded
row per record are joined with newlines. -/
def convertToCSV (data : List CSVRecord) (fields : List CSVField) : Str :=
  if data.isEmpty then []
  else
    intercalateChar '\n'
      ((intercalateChar ',' (fields.map (fun f => f.2))) :: data.map (encodeRow fields))

/-- Parser mode of the RFC 4180 state machine: inside an unquoted field,
inside a quoted field, or just after a quote inside a quoted field. -/
inductive CSVMode where
  | unquoted
  | inQuotes
  | afterQuote
deriving DecidableEq

/-- Parser state: completed rows, completed fields of the current row, the
characters of the current field, and the mode. -/
structure CSVState where
  rows : List (List Str)
  row : List Str
  fld : Str
  mode : CSVMode
deriving DecidableEq

/-- One character step of the RFC 4180 parsing state machine (LF row
separators, quoted fields with doubled internal quotes; unquoted stray quotes
are taken literally). -/
def csvStep : CSVState → Char → CSVState
  | ⟨rows, row, fld, .unquoted⟩, c =>
    if c = ',' then ⟨rows, row ++ [fld], [], .unquoted⟩
    else if c = '\n' then ⟨rows ++ [row ++ [fld]], [], [], .unquoted⟩
    else if c = '"' then
      if fld.isEmpty then ⟨rows, row, fld, .inQuotes⟩
      else ⟨rows, row, fld ++ [c], .unquoted⟩
    else ⟨rows, row, fld ++ [c], .unquoted⟩
  | ⟨rows, row, fld, .inQuotes⟩, c =>
    if c = '"' then ⟨rows, row, fld, .afterQuote⟩
    else ⟨rows, row, fld ++ [c], .inQuotes⟩
  | ⟨rows, row, fld, .afterQuote⟩, c =>
    if c = '"' then ⟨rows, row, fld ++ [c], .inQuotes⟩
    else if c = ',' then ⟨rows, row ++ [fld], [], .unquoted⟩
    else if c = '\n' then ⟨rows ++ [row ++ [fld]], [], [], .unquoted⟩
    else ⟨rows, row, fld ++ [c], .unquoted⟩

/-- End-of-input handling: a final pending field or row is flushed; nothing is
flushed after a trailing row separator (RFC 4180 makes the final line break
optional), so text with a trailing LF parses to the same rows as without. -/
def csvFinalize (st : CSVState) : List (List Str) :=
  if st.row = [] ∧ st.fld = [] ∧ st.mode = .unquoted then st.rows
  else st.rows ++ [st.row ++ [st.fld]]

/-- RFC 4180 style CSV parsing of a whole text. -/
def parseCSV (input : Str) : List (List Str) :=
  csvFinalize (input.foldl csvStep ⟨[], [], [], .unquoted⟩)

/-- Written from the spec's words for section 4.4 (the CSV export transform),
to be compared with the embedded `convertToCSV`: a string value containing a
comma or a quote is wrapped in quotes with internal quotes doubled. -/
def specQuoteValue (s : Str) : Str :=
  if hasChar s ',' = true ∨ hasChar s '"' = true then '"' :: (doubleQuotes s ++ ['"'])
  else s

/-- Written from the spec's words for section 4.4: each value is emitted
as-is apart from the quoting rule, with null and undefined as the empty
string. -/
def specCell : Option JValue → Str
  | some (.str s) => specQuoteValue s
  | some (.num n) => intToStr n
  | some .null => []
  | none => []

/-- Written from the spec's words for section 4.4: a header row of the labels
followed by exactly one row per record, rows joined by newlines, with no
special case for an empty record sequence. -/
def specConvertToCSV (data : List CSVRecord) (fields : List CSVField) : Str :=
  intercalateChar '\n'
    ((intercalateChar ',' (fields.map (fun f => f.2))) ::
      data.map (fun item =>
        intercalateChar ',' (fields.map (fun f => specCell (lookupKey item f.1)))))

/-- The spec-side quoting rule coincides with the embedded one. -/
lemma specQuoteValue_eq (s : Str) : specQuoteValue s = encodeCell s := by
  simp only [specQuoteValue, encodeCell, hasCommaOrQuote, Bool.or_eq_true]

/-- The spec-side cell emission coincides with the embedded one. -/
lemma specCell_eq (v : Option JValue) : specCell v = csvCell v := by
  match v with
  | some (.str s) => simpa [specCell, csvCell] using specQuoteValue_eq s
  | some (.num n) => rfl
  | some .null => rfl
  | none => rfl

/-- Counterexample to C5: for the empty record sequence the code returns the
empty string with no header row, while the spec-described transform still
emits the header row of labels. -/
theorem csv_empty_data_cex :
    convertToCSV [] [(['x'], ['X'])] = [] ∧
    specConvertToCSV [] [(['x'], ['X'])] = ['X'] ∧
    convertToCSV [] [(['x'], ['X'])] ≠ specConvertToCSV [] [(['x'], ['X'])] := by
  refine ⟨rfl, rfl, ?_⟩
  decide

/-- C5 amended: for a non-empty record sequence `convertToCSV` produces
exactly the spec-described output — header row of labels then one row per
record, string values containing a comma or a quote wrapped in quotes with
internal quotes doubled, all other values as-is and null or undefined as the
empty string — while for the empty sequence it produces the empty string with
no header row. -/
theorem csv_output_shape :
    ∀ (data : List CSVRecord) (fields : List CSVField),
      convertToCSV data fields =
        if data.isEmpty then [] else specConvertToCSV data fields := by
  intro data fields
  cases data with
  | nil => rfl
  | cons item rest =>
    simp only [convertToCSV, specConvertToCSV, List.isEmpty_cons, Bool.false_eq_true,
      if_false]
    have hfun : (fun it : CSVRecord =>
        intercalateChar ',' (fields.map (fun f => specCell (lookupKey it f.1)))) =
        encodeRow fields := by
      funext it
      simp only [encodeRow]
      congr 1
      congr 1
      funext f
      exact specCell_eq (lookupKey it f.1)
    rw [hfun]

/-- A string has no occurrence of a character exactly when `hasChar` fails. -/
lemma hasChar_eq_false_iff (s : Str) (x : Char) :
    hasChar s x = false ↔ ∀ c ∈ s, c ≠ x := by
  induction s with
  | nil => simp [hasChar]
  | cons c cs ih =>
    by_cases h : c = x
    · subst h
      simp [hasChar]
    · simp [hasChar, h, ih]

/-- Stepping the parser over a run of ordinary characters (no comma, newline
or quote) in unquoted mode just appends them to the current field. -/
lemma foldl_csvStep_plain (s : Str) :
    ∀ (rows : List (List Str)) (row : List Str) (fld : Str),
      (∀ c ∈ s, c ≠ ',' ∧ c ≠ '\n' ∧ c ≠ '"') →
      List.foldl csvStep ⟨rows, row, fld, .unquoted⟩ s =
        ⟨rows, row, fld ++ s, .unquoted⟩ := by
  induction s with
  | nil => intro rows row fld _; simp
  | cons c cs ih =>
    intro rows row fld h
    obtain ⟨h1, h2, h3⟩ := h c (by simp)
    have hstep : csvStep ⟨rows, row, fld, .unquoted⟩ c =
        ⟨rows, row, fld ++ [c], .unquoted⟩ := by
      simp [csvStep, h1, h2, h3]
    rw [List.foldl_cons, hstep, ih _ _ _ (fun d hd => h d (by simp [hd]))]
    simp

/-- Stepping the parser over the quote-doubled form of a value while inside a
quoted field appends the raw value to the current field and stays inside the
quotes. -/
lemma foldl_csvStep_doubleQuotes (v : Str) :
    ∀ (rows : List (List Str)) (row : List Str) (fld : Str),
      List.foldl csvStep ⟨rows, row, fld, .inQuotes⟩ (doubleQuotes v) =
        ⟨rows, row, fld ++ v, .inQuotes⟩ := by
  induction v with
  | nil => intro rows row fld; simp [doubleQuotes]
  | cons c cs ih =>
    intro rows row fld
    by_cases hc : c = '"'
    · subst hc
      have hd : doubleQuotes ('"' :: cs) = '"' :: '"' :: doubleQuotes cs := rfl
      rw [hd, List.foldl_cons, List.foldl_cons]
      have s1 : csvStep ⟨rows, row, fld, .inQuotes⟩ '"' =
          ⟨rows, row, fld, .afterQuote⟩ := by simp [csvStep]
      have s2 : csvStep ⟨rows, row, fld, .afterQuote⟩ '"' =
          ⟨rows, row, fld ++ ['"'], .inQuotes⟩ := by simp [csvStep]
      rw [s1, s2, ih]
      simp
    · have hd : doubleQuotes (c :: cs) = c :: doubleQuotes cs := by
        simp [doubleQuotes, hc]
      rw [hd, List.foldl_cons]
      have s1 : csvStep ⟨rows, row, fld, .inQuotes⟩ c =
          ⟨rows, row, fld ++ [c], .inQuotes⟩ := by simp [csvStep, hc]
      rw [s1, ih]
      simp

/-- Stepping the parser over one encoded cell from the start of a field lands
in a state holding exactly the raw value, after the closing quote when the
cell was quoted and still unquoted otherwise. -/
lemma foldl_encodeCell (v : Str) (hv : hasChar v '\n' = false)
    (rows : List (List Str)) (row : List Str) :
    List.foldl csvStep ⟨rows, row, [], .unquoted⟩ (encodeCell v) =
      ⟨rows, row, v, if hasCommaOrQuote v then .afterQuote else .unquoted⟩ := by
  by_cases hq : hasCommaOrQuote v = true
  · simp only [encodeCell, if_pos hq, hq, if_true]
    rw [List.foldl_cons]
    have s1 : csvStep ⟨rows, row, [], .unquoted⟩ '"' =
        ⟨rows, row, [], .inQuotes⟩ := by simp [csvStep]
    rw [s1, List.foldl_append, foldl_csvStep_doubleQuotes]
    have s2 : csvStep ⟨rows, row, [] ++ v, .inQuotes⟩ '"' =
        ⟨rows, row, [] ++ v, .afterQuote⟩ := by simp [csvStep]
    simp only [List.foldl_cons, List.foldl_nil, s2]
    simp
  · have hq' : hasCommaOrQuote v = false := by
      simpa using hq
    have hcq := hq'
    simp only [hasCommaOrQuote, Bool.or_eq_false_iff] at hcq
    have hcomma := (hasChar_eq_false_iff v ',').mp hcq.1
    have hquote := (hasChar_eq_false_iff v '"').mp hcq.2
    have hnl := (hasChar_eq_false_iff v '\n').mp hv
    simp only [encodeCell, hq', Bool.false_eq_true, if_false]
    rw [foldl_csvStep_plain v rows row []
      (fun c hc => ⟨hcomma c hc, hnl c hc, hquote c hc⟩)]
    simp

/-- A comma ends the current field in either field-final parser mode. -/
lemma csvStep_comma (rows : List (List Str)) (row : List Str) (fld : Str)
    (m : CSVMode) (hm : m ≠ CSVMode.inQuotes) :
    csvStep ⟨rows, row, fld, m⟩ ',' = ⟨rows, row ++ [fld], [], .unquoted⟩ := by
  cases m with
  | unquoted => simp [csvStep]
  | inQuotes => exact absurd rfl hm
  | afterQuote => simp [csvStep]

/-- A newline ends the current field and row in either field-final parser
mode. -/
lemma csvStep_newline (rows : List (List Str)) (row : List Str) (fld : Str)
    (m : CSVMode) (hm : m ≠ CSVMode.inQuotes) :
    csvStep ⟨rows, row, fld, m⟩ '\n' =
      ⟨rows ++ [row ++ [fld]], [], [], .unquoted⟩ := by
  cases m with
  | unquoted => simp [csvStep]
  | inQuotes => exact absurd rfl hm
  | afterQuote => simp [csvStep]

/-- Stepping the parser over the comma-joined encoding of a non-empty list of
newline-free cell values followed by a newline completes one row holding
exactly those values and leaves the parser at a fresh row for the remaining
input. -/
lemma foldl_row_newline :
    ∀ (cells : List Str), cells ≠ [] →
      (∀ v ∈ cells, hasChar v '\n' = false) →
      ∀ (rows : List (List Str)) (row : List Str) (rest : Str),
        List.foldl csvStep ⟨rows, row, [], .unquoted⟩
            (intercalateChar ',' (cells.map encodeCell) ++ '\n' :: rest) =
          List.foldl csvStep ⟨rows ++ [row ++ cells], [], [], .unquoted⟩ rest := by
  intro cells
  induction cells with
  | nil => intro h; exact absurd rfl h
  | cons v vs ih =>
    intro _ hnl rows row rest
    have hv : hasChar v '\n' = false := hnl v (by simp)
    cases vs with
    | nil =>
      simp only [List.map_cons, List.map_nil, intercalateChar]
      rw [List.foldl_append, foldl_encodeCell v hv, List.foldl_cons,
        csvStep_newline _ _ _ _ (by split <;> simp)]
    | cons v2 vs2 =>
      simp only [List.map_cons, intercalateChar]
      have ih2 := ih (by simp) (fun d hd => hnl d (by simp [hd])) rows (row ++ [v]) rest
      simp only [List.map_cons] at ih2
      rw [List.append_assoc, List.cons_append, List.foldl_append,
        foldl_encodeCell v hv, List.foldl_cons,
        csvStep_comma _ _ _ _ (by split <;> simp), ih2]
      simp

/-- Finalising the parser after the comma-joined encoding of a non-empty list
of newline-free cell values flushes one last row holding exactly those
values, provided that last row is not a single empty unquoted field with
nothing before it. -/
lemma finalize_row :
    ∀ (cells : List Str), cells ≠ [] →
      (∀ v ∈ cells, hasChar v '\n' = false) →
      ∀ (rows : List (List Str)) (row : List Str),
        ¬ (row = [] ∧ cells = [[]]) →
        csvFinalize (List.foldl csvStep ⟨rows, row, [], .unquoted⟩
            (intercalateChar ',' (cells.map encodeCell))) =
          rows ++ [row ++ cells] := by
  intro cells
  induction cells with
  | nil => intro h; exact absurd rfl h
  | cons v vs ih =>
    intro _ hnl rows row hlast
    have hv : hasChar v '\n' = false := hnl v (by simp)
    cases vs with
    | nil =>
      simp only [List.map_cons, List.map_nil, intercalateChar]
      rw [foldl_encodeCell v hv]
      by_cases hq : hasCommaOrQuote v = true
      · simp only [hq, if_true]
        simp [csvFinalize]
      · have hq' : hasCommaOrQuote v = false := by simpa using hq
        simp only [hq', Bool.false_eq_true, if_false]
        have hne : ¬ (row = [] ∧ v = [] ∧ CSVMode.unquoted = CSVMode.unquoted) := by
          rintro ⟨h1, h2, -⟩
          exact hlast ⟨h1, by rw [h2]⟩
        simp only [csvFinalize]
        rw [if_neg (fun h => hne ⟨h.1, h.2.1, rfl⟩)]
    | cons v2 vs2 =>
      simp only [List.map_cons, intercalateChar]
      have ih2 := ih (by simp) (fun d hd => hnl d (by simp [hd])) rows (row ++ [v])
        (by rintro ⟨h1, -⟩; simp at h1)
      simp only [List.map_cons] at ih2
      rw [List.foldl_append, foldl_encodeCell v hv,
        List.foldl_cons, csvStep_comma _ _ _ _ (by split <;> simp), ih2]
      simp

/-- Whether the final row of a parsed row list survives finalisation: only a
last row consisting of a single empty field is at risk. -/
def lastRowOK : List (List Str) → Bool
  | [] => true
  | [cs] => if cs = [[]] then false else true
  | _ :: cs2 :: rest => lastRowOK (cs2 :: rest)

/-- Parsing the newline-joined, comma-joined encoding of a non-empty list of
rows of newline-free cell values returns exactly those rows, for any already
accumulated rows, provided every row is non-empty and the last row is not a
single empty field. -/
lemma parse_rows_encode :
    ∀ (rcs : List (List Str)), rcs ≠ [] →
      (∀ cs ∈ rcs, cs ≠ [] ∧ ∀ v ∈ cs, hasChar v '\n' = false) →
      lastRowOK rcs = true →
      ∀ (acc : List (List Str)),
        csvFinalize (List.foldl csvStep ⟨acc, [], [], .unquoted⟩
            (intercalateChar '\n'
              (rcs.map (fun cs => intercalateChar ',' (cs.map encodeCell))))) =
          acc ++ rcs := by
  intro rcs
  induction rcs with
  | nil => intro h; exact absurd rfl h
  | cons cs rcs2 ih =>
    intro _ hc hlast acc
    cases rcs2 with
    | nil =>
      simp only [List.map_cons, List.map_nil, intercalateChar]
      have h1 := hc cs (by simp)
      have hcs : ¬ cs = [[]] := by
        by_contra h
        rw [lastRowOK, if_pos h] at hlast
        exact Bool.false_ne_true hlast
      rw [finalize_row cs h1.1 h1.2 acc [] (by rintro ⟨-, h2⟩; exact hcs h2)]
      simp
    | cons cs2 rcs3 =>
      simp only [List.map_cons, intercalateChar]
      have h1 := hc cs (by simp)
      have hrow := foldl_row_newline cs h1.1 h1.2 acc []
        (intercalateChar '\n'
          ((cs2 :: rcs3).map (fun cs => intercalateChar ',' (cs.map encodeCell))))
      simp only [List.map_cons] at hrow
      rw [hrow, List.nil_append]
      have hlast2 : lastRowOK (cs2 :: rcs3) = true := hlast
      have := ih (by simp) (fun d hd => hc d (by simp [hd])) hlast2 (acc ++ [cs])
      simp only [List.map_cons] at this
      rw [this]
      simp

/-- The string carried by a field value, for stating the round-trip (other
values play no role under the all-strings hypothesis). -/
def strOf : Option JValue → Str
  | some (.str s) => s
  | _ => []

/-- A field value that is a string free of newlines — the values the
round-trip claim quantifies over and the encoder can actually round-trip. -/
def cellIsStr : Option JValue → Bool
  | some (.str s) => !(hasChar s '\n')
  | _ => false

/-- A header label free of commas, quotes and newlines; `convertToCSV` joins
labels without any escaping, so only such labels survive parsing. -/
def labelOK (l : Str) : Bool :=
  (!(hasChar l ',') && !(hasChar l '"')) && !(hasChar l '\n')

/-- Mapping a function that is pointwise the identity on a list leaves it
unchanged. -/
lemma map_pointwise {α β : Type} (f g : α → β) :
    ∀ l : List α, (∀ a ∈ l, f a = g a) → l.map f = l.map g := by
  intro l
  induction l with
  | nil => intro _; rfl
  | cons a t ih =>
    intro h
    simp only [List.map_cons]
    rw [h a (by simp), ih (fun b hb => h b (by simp [hb]))]

/-- A label passing `labelOK` is emitted verbatim and contains no newline. -/
lemma labelOK_spec (l : Str) (h : labelOK l = true) :
    encodeCell l = l ∧ hasChar l '\n' = false := by
  simp only [labelOK, Bool.and_eq_true, Bool.not_eq_true'] at h
  obtain ⟨⟨h1, h2⟩, h3⟩ := h
  refine ⟨?_, h3⟩
  simp [encodeCell, hasCommaOrQuote, h1, h2]

/-- A field value passing `cellIsStr` is encoded as its newline-free string. -/
lemma cellIsStr_spec (v : Option JValue) (h : cellIsStr v = true) :
    csvCell v = encodeCell (strOf v) ∧ hasChar (strOf v) '\n' = false := by
  match v with
  | some (.str s) =>
    simp only [cellIsStr, Bool.not_eq_true'] at h
    exact ⟨rfl, h⟩
  | some (.num n) => simp [cellIsStr] at h
  | some .null => simp [cellIsStr] at h
  | none => simp [cellIsStr] at h

/-- Counterexample to C4: a record whose string value contains a newline is
emitted unquoted, so the RFC 4180 parse of the output splits it into two rows
instead of reproducing the value. -/
theorem csv_roundtrip_newline_cex :
    parseCSV (convertToCSV [[(['x'], JValue.str ['a', '\n', 'b'])]]
        [(['x'], ['X'])]) = [[['X']], [['a']], [['b']]] ∧
    (parseCSV (convertToCSV [[(['x'], JValue.str ['a', '\n', 'b'])]]
        [(['x'], ['X'])])).tail ≠ [[['a', '\n', 'b']]] := by
  constructor
  · decide
  · decide

/-- C4 amended: for a non-empty field-selector list whose labels are free of
commas, quotes and newlines, and records whose selected values are
newline-free strings (values containing a comma, a quote, and plain values
all allowed), parsing the emitted CSV with the RFC 4180 parser reproduces the
header labels and every record's field values exactly — provided the last
record does not encode to an empty line (a single selected field holding the
empty string), which the trailing-line-break convention of RFC 4180 would
swallow. -/
theorem csv_roundtrip (data : List CSVRecord) (fields : List CSVField)
    (hf : fields ≠ [])
    (hl : ∀ f ∈ fields, labelOK f.2 = true)
    (hv : ∀ item ∈ data, ∀ f ∈ fields, cellIsStr (lookupKey item f.1) = true)
    (hlast : lastRowOK (data.map (fun item =>
        fields.map (fun f => strOf (lookupKey item f.1)))) = true) :
    parseCSV (convertToCSV data fields) =
      if data.isEmpty then []
      else (fields.map (fun f => f.2)) ::
        data.map (fun item => fields.map (fun f => strOf (lookupKey item f.1))) := by
  cases data with
  | nil => rfl
  | cons it its =>
    have hlabels : (fields.map (fun f => f.2)).map encodeCell =
        fields.map (fun f => f.2) := by
      rw [List.map_map]
      apply map_pointwise
      intro f hfm
      exact (labelOK_spec f.2 (hl f hfm)).1
    have hrows : (it :: its).map (encodeRow fields) =
        ((it :: its).map (fun item =>
          fields.map (fun f => strOf (lookupKey item f.1)))).map
            (fun cs => intercalateChar ',' (cs.map encodeCell)) := by
      rw [List.map_map]
      apply map_pointwise
      intro item hitem
      simp only [Function.comp_apply, encodeRow]
      congr 1
      rw [List.map_map]
      apply map_pointwise
      intro f hfm
      simp only [Function.comp_apply]
      exact (cellIsStr_spec _ (hv item hitem f hfm)).1
    have hall : ((fields.map (fun f => f.2)) ::
        (it :: its).map (fun item =>
          fields.map (fun f => strOf (lookupKey item f.1)))).map
          (fun cs => intercalateChar ',' (cs.map encodeCell)) =
        (intercalateChar ',' (fields.map (fun f => f.2))) ::
          (it :: its).map (encodeRow fields) := by
      show intercalateChar ',' ((fields.map (fun f => f.2)).map encodeCell) ::
          ((it :: its).map (fun item =>
            fields.map (fun f => strOf (lookupKey item f.1)))).map
            (fun cs => intercalateChar ',' (cs.map encodeCell)) =
        (intercalateChar ',' (fields.map (fun f => f.2))) ::
          (it :: its).map (encodeRow fields)
      rw [hlabels, hrows]
    have hcond : ∀ cs ∈ (fields.map (fun f => f.2)) ::
        (it :: its).map (fun item =>
          fields.map (fun f => strOf (lookupKey item f.1))),
        cs ≠ [] ∧ ∀ v ∈ cs, hasChar v '\n' = false := by
      intro cs hcs
      rcases List.mem_cons.mp hcs with h | h
      · subst h
        refine ⟨by simpa using hf, ?_⟩
        intro v hvm
        rcases List.mem_map.mp hvm with ⟨f, hfm, hfv⟩
        rw [← hfv]
        exact (labelOK_spec f.2 (hl f hfm)).2
      · rcases List.mem_map.mp h with ⟨item, hitem, hiv⟩
        subst hiv
        refine ⟨by simpa using hf, ?_⟩
        intro v hvm
        rcases List.mem_map.mp hvm with ⟨f, hfm, hfv⟩
        rw [← hfv]
        exact (cellIsStr_spec _ (hv item hitem f hfm)).2
    have hlast' : lastRowOK ((fields.map (fun f => f.2)) ::
        (it :: its).map (fun item =>
          fields.map (fun f => strOf (lookupKey item f.1)))) = true := by
      simp only [List.map_cons] at hlast ⊢
      simpa [lastRowOK] using hlast
    have hres := parse_rows_encode _ (by simp) hcond hlast' []
    rw [hall] at hres
    have hne : ((it :: its) : List CSVRecord).isEmpty = false := rfl
    simp only [convertToCSV, hne, Bool.false_eq_true, if_false]
    unfold parseCSV
    rw [hres]
    simp

/-- Concrete field selectors for the C4 witness. -/
def sampleFields : List CSVField := [(['x'], ['X'])]

/-- Concrete records for the C4 witness: a value with a comma, a value with a
quote, and a plain value. -/
def sampleData : List CSVRecord :=
  [[(['x'], JValue.str ['a', ',', 'b'])], [(['x'], JValue.str ['s', '"', 't'])],
   [(['x'], JValue.str ['p'])]]

/-- Witness for C4 on records holding a comma value, a quote value and a
plain value. -/
theorem csv_roundtrip_w :
    parseCSV (convertToCSV sampleData sampleFields) =
      if sampleData.isEmpty then []
      else (sampleFields.map (fun f => f.2)) ::
        sampleData.map (fun item =>
          sampleFields.map (fun f => strOf (lookupKey item f.1))) :=
  csv_roundtrip sampleData sampleFields (by decide) (by decide) (by decide)
    (by decide)
